import Mathlib

/-!
# Verification of the no-raii-benchmark tree/arena core (src/main.cpp)

Shallow embedding of the program in `src/main.cpp`:

* the shared tree type and the checksum traversal (`traverse`, lines 196-204),
* the shared tree builder (`build_subtree` / `build_tree`, lines 174-193),
  threaded over the process-wide node counter `g_stat.n_nodes_created`,
* the region allocator (`without_raii::Allocator::allocate_block`,
  lines 91-115), with page addresses supplied by an oracle `pb` standing for
  the addresses at which the `deque<Page>` places its 1024-byte-aligned
  64 KiB pages, and with an explicit fuel bounding the retry recursion,
* the fixed-capacity vector (`without_raii::Vector`, lines 135-156), with its
  backing block modelled as a list of `max_size` slots (`Option` = possibly
  uninitialized memory).

Machine integers are modelled as `Nat`: every quantity involved (node ids,
sizes, cursors) is non-negative in the source, and no operation overflows
in the scenarios quantified over.
-/

namespace NoRaii

/-- `43112609`, the checksum modulus in `traverse` (src/main.cpp:201). -/
def CHECKSUM_MOD : Nat := 43112609

/-- A tree node: `node_id` plus the ordered list of children.  Faithful to
both `with_raii::Node` and `without_raii::Node`, whose observable content
(id, ordered children) is identical; pointers/ownership are not observable
through `traverse`. -/
inductive Tree where
  | node (node_id : Nat) (children : List Tree)
deriving Repr

mutual
/-- `traverse` (src/main.cpp:196-204): `checksum = node_id`, then for each
child in order `checksum = (checksum + traverse(child)) % 43112609`. -/
def traverse : Tree → Nat
  | .node i cs => traverseAux i cs
/-- The `for (auto& c : node.children)` accumulation loop of `traverse`. -/
def traverseAux : Nat → List Tree → Nat
  | acc, [] => acc
  | acc, c :: cs => traverseAux ((acc + traverse c) % CHECKSUM_MOD) cs
end

mutual
/-- Sum of all node ids of a tree (specification-side quantity). -/
def sumIds : Tree → Nat
  | .node i cs => i + sumIdsList cs
def sumIdsList : List Tree → Nat
  | [] => 0
  | c :: cs => sumIds c + sumIdsList cs
end

mutual
/-- `true` iff every node id in the tree is `< m`. -/
def idsBelow (m : Nat) : Tree → Bool
  | .node i cs => decide (i < m) && idsBelowList m cs
def idsBelowList (m : Nat) : List Tree → Bool
  | [] => true
  | c :: cs => idsBelow m c && idsBelowList m cs
end

mutual
/-- The preorder list of node ids of a tree (specification-side quantity). -/
def idsList : Tree → List Nat
  | .node i cs => i :: idsListList cs
def idsListList : List Tree → List Nat
  | [] => []
  | c :: cs => idsList c ++ idsListList cs
end

mutual
/-- Modelled from the spec (section 4.4): `checksum = (own_id + sum of
checksum(child) for each child, each reduction taken modulo 43112609) mod
43112609` — the same per-child accumulation as the code, but with the final
reduction applied to the whole expression (hence also to a childless node's
own id). -/
def checksum_spec : Tree → Nat
  | .node i cs => checksumSpecAux i cs % CHECKSUM_MOD
/-- The per-child accumulation of `checksum_spec`. -/
def checksumSpecAux : Nat → List Tree → Nat
  | acc, [] => acc
  | acc, c :: cs => checksumSpecAux ((acc + checksum_spec c) % CHECKSUM_MOD) cs
end

/-! ## Tree construction (`build_subtree` / `build_tree`, src/main.cpp:174-193)

The builder is a template shared by both strategies; only the allocator
effects of `Node(..)` / `add_child` differ.  `buildSubtree` below is the
ownership-based (`with_raii`) instance: the only state is the process-wide
node counter `g_stat.n_nodes_created`, threaded explicitly. -/

/-- The `for (int i = 0; i < n; ++i) node.add_child(...)` loop: create `n`
fresh children (each `Node` takes `node_id = counter++` and starts with no
children), returning them in creation order with the final counter. -/
def addKids : Nat → Nat → List Tree × Nat
  | 0, c => ([], c)
  | n + 1, c =>
    let p := addKids n (c + 1)
    (Tree.node c [] :: p.1, p.2)

/-- The `for (auto& c : node.children) build_subtree(allocator, *c, ...)`
loop: apply a counter-threaded rebuild `f` to each child left-to-right. -/
def mapAccumCounter (f : Tree → Nat → Tree × Nat) : List Tree → Nat → List Tree × Nat
  | [], c => ([], c)
  | t :: ts, c =>
    let p := f t c
    let q := mapAccumCounter f ts p.2
    (p.1 :: q.1, q.2)

/-- `build_subtree(allocator, node, levels_left)` (src/main.cpp:174-185):
append `k` fresh children to `node`, then, unless `--levels_left <= 0`,
recurse into every child with `levels_left - 1`.  First argument of the
match is `levels_left`; the counter is threaded. -/
def buildSubtree (k : Nat) : Nat → Tree → Nat → Tree × Nat
  | 0 => fun t c =>
    match t with
    | .node id ch =>
      let p := addKids k c
      (Tree.node id (ch ++ p.1), p.2)
  | 1 => fun t c =>
    match t with
    | .node id ch =>
      let p := addKids k c
      (Tree.node id (ch ++ p.1), p.2)
  | L + 2 => fun t c =>
    match t with
    | .node id ch =>
      let p := addKids k c
      let q := mapAccumCounter (buildSubtree k (L + 1)) (ch ++ p.1) p.2
      (Tree.node id q.1, q.2)

/-- `build_tree` (src/main.cpp:187-193) with the counter reset to 0 before
the run (`g_stat = AllocationStat{}` in `test`, src/main.cpp:223): construct
the root (taking id 0) and drive `buildSubtree` with `d` levels left.
Returns the finished tree and the final node counter. -/
def buildTreeRaii (k d : Nat) : Tree × Nat :=
  buildSubtree k d (Tree.node 0 []) 1

/-- Children created below one node by `build_subtree` with `levels_left`
levels: `k` direct children, plus, when recursion continues
(`levels_left ≥ 2`), the children each of them creates with one level less. -/
def gcount (k : Nat) : Nat → Nat
  | 0 => k
  | 1 => k
  | L + 2 => k + k * gcount k (L + 1)

/-! ## The region allocator (`without_raii::Allocator`, src/main.cpp:81-124)

Pages are `std::aligned_storage<PAGE_SIZE, 1024>` buffers held in a
`deque`; the address at which page number `i` ends up is supplied by an
oracle `pb : Nat → Nat` (the program has no control over it beyond the
1024-byte alignment of the type and the disjointness of distinct live
objects).  The recursive retry of `allocate_block` is bounded by an
explicit fuel; running out of fuel (`none`) marks an execution that has
not terminated within that many attempts. -/

/-- `MAX_SMALL_BLOCK_SIZE` (src/main.cpp:76). -/
def MAX_SMALL_BLOCK_SIZE : Nat := 4096

/-- `PAGE_SIZE` (src/main.cpp:77). -/
def PAGE_SIZE : Nat := 65536

/-- The page type's alignment (src/main.cpp:83). -/
def PAGE_ALIGN : Nat := 1024

/-- Round `p` up to the next multiple of `a` (what `std::align` computes). -/
def roundUp (p a : Nat) : Nat := ((p + a - 1) / a) * a

/-- `std::align(alignment, size, ptr, space)` on cursor `p` with `space`
bytes left: on success returns the aligned pointer together with the space
diminished by the alignment padding; on failure returns `none` and (as in
the C++ call) leaves cursor and space unchanged. -/
def stdAlign (alignment size p space : Nat) : Option (Nat × Nat) :=
  let q := roundUp p alignment
  if q - p + size ≤ space then some (q, space - (q - p)) else none

/-- Allocator state: `pages.size()` plus the
(`active_page_first_free_byte`, `active_page_bytes_left`) cursor pair,
`none` standing for the null/invalidated cursor. -/
structure AllocState where
  nPages : Nat
  cursor : Option (Nat × Nat)
deriving Repr, DecidableEq

/-- Result of one `allocate_block` call: a block address plus the new
state, or the `std::terminate()` branch for oversized requests. -/
inductive AllocResult where
  | ok (addr : Nat) (st : AllocState)
  | fatal
deriving Repr, DecidableEq

/-- `allocate_block(size, alignment)` (src/main.cpp:91-115), with page
addresses drawn from `pb` and the retry recursion metered by fuel:
if the size is small, obtain a page if the cursor is null, try to carve an
aligned block at the cursor, and on failure invalidate the cursor and
retry; an oversized request prints and calls `std::terminate()`. -/
def allocateFuel (pb : Nat → Nat) : Nat → Nat → Nat → AllocState → Option AllocResult
  | 0, _, _, _ => none
  | fuel + 1, size, alignment, st =>
    if size ≤ MAX_SMALL_BLOCK_SIZE then
      let c : Nat × Nat × Nat :=
        match st.cursor with
        | none => (pb st.nPages, PAGE_SIZE, st.nPages + 1)
        | some (p, s) => (p, s, st.nPages)
      match stdAlign alignment size c.1 c.2.1 with
      | some (q, s1) => some (.ok q ⟨c.2.2, some (q + size, s1 - size)⟩)
      | none => allocateFuel pb fuel size alignment ⟨c.2.2, none⟩
    else some .fatal

/-- A returned block: address, requested size, requested alignment. -/
abbrev Block : Type := Nat × Nat × Nat

/-- The fresh allocator (`pages` empty, cursor null). -/
def initAllocState : AllocState := ⟨0, none⟩

/-- Run a sequence of `allocate_block(size, alignment)` requests on one
allocator, collecting the returned blocks in order.  `none` if some call
aborts or does not finish within the fuel. -/
def runAlloc (pb : Nat → Nat) (fuel : Nat) : List (Nat × Nat) → AllocState → Option (List Block × AllocState)
  | [], st => some ([], st)
  | (size, alignment) :: rs, st =>
    match allocateFuel pb fuel size alignment st with
    | some (.ok addr st1) =>
      match runAlloc pb fuel rs st1 with
      | some (bs, st2) => some (((addr, size, alignment) : Block) :: bs, st2)
      | none => none
    | _ => none

/-- A page-address oracle the C++ `deque` could legitimately produce:
pages at consecutive 64 KiB strides offset by the page type's 1024-byte
alignment, so every page is 1024-aligned but none is 65536-aligned. -/
def pbSkew : Nat → Nat := fun i => PAGE_SIZE * i + PAGE_ALIGN

/-- Two address ranges are disjoint. -/
def rangesDisjoint (x xlen y ylen : Nat) : Prop :=
  x + xlen ≤ y ∨ y + ylen ≤ x

/-- The page oracle places distinct pages at disjoint address ranges. -/
def pagesDisjoint (pb : Nat → Nat) : Prop :=
  ∀ i j, i ≠ j → rangesDisjoint (pb i) PAGE_SIZE (pb j) PAGE_SIZE

/-- Block `b` lies within page `i`. -/
def blockInPage (pb : Nat → Nat) (b : Block) (i : Nat) : Prop :=
  pb i ≤ b.1 ∧ b.1 + b.2.1 ≤ pb i + PAGE_SIZE

/-- Two returned blocks occupy disjoint address ranges. -/
def blocksDisjoint (b b' : Block) : Prop :=
  rangesDisjoint b.1 b.2.1 b'.1 b'.2.1

/-- The allocator invariant relative to the blocks handed out so far:
a live cursor spans exactly the tail of the last page; every block lies in
a created page, below the cursor when that page is the active one; blocks
are mutually disjoint and aligned as requested. -/
def Inv (pb : Nat → Nat) (st : AllocState) (bs : List Block) : Prop :=
  (∀ p s, st.cursor = some (p, s) →
    ∃ i, i + 1 = st.nPages ∧ pb i ≤ p ∧ p + s = pb i + PAGE_SIZE) ∧
  (∀ b ∈ bs, ∃ i, i < st.nPages ∧ blockInPage pb b i ∧
    ∀ p s, st.cursor = some (p, s) → i + 1 = st.nPages → b.1 + b.2.1 ≤ p) ∧
  List.Pairwise blocksDisjoint bs ∧
  (∀ b ∈ bs, 0 < b.2.2 → b.2.2 ∣ b.1)

/-! ## The fixed-capacity vector (`without_raii::Vector`, src/main.cpp:135-156)

The backing `Block` is modelled as a list of `max_size` slots; a slot is
`none` while its raw memory is still uninitialized.  `items` records the
block address handed out by the allocator at construction. -/

/-- `without_raii::Vector<T>`: block address, slot contents, live count,
capacity. -/
structure Vector (α : Type) where
  items : Nat
  store : List (Option α)
  size : Nat
  max_size : Nat
deriving Repr

/-- The constructor (src/main.cpp:143-146): one block of `max_size`
uninitialized slots, `size = 0`. -/
def mkVector (α : Type) (addr max_size : Nat) : Vector α :=
  ⟨addr, List.replicate max_size none, 0, max_size⟩

/-- `push_back` (src/main.cpp:149-153): assert `size < max_size`, then
placement-new the value into slot `size` and increment `size`.  The failed
assertion (process abort) is modelled as `none`. -/
def Vector.push_back (v : Vector α) (x : α) : Option (Vector α) :=
  if v.size < v.max_size then
    some ⟨v.items, v.store.set v.size (some x), v.size + 1, v.max_size⟩
  else none

/-- Push a whole list, left to right. -/
def Vector.pushAll (v : Vector α) : List α → Option (Vector α)
  | [] => some v
  | x :: xs => match v.push_back x with
    | some v1 => v1.pushAll xs
    | none => none

/-- Iterating from `begin()` to `end()` (src/main.cpp:154-155) reads the
first `size` slots in order. -/
def Vector.iterate (v : Vector α) : List (Option α) :=
  v.store.take v.size

/-! ## The region-based tree construction (`without_raii`, src/main.cpp:159-193)

The same `build_subtree` template instantiated with `without_raii::Node`:
`add_child` is `new_object<Node>` (an `allocate_block(sizeof(Node),
alignof(Node))`, i.e. 24 bytes at alignment 8) followed by the node's
`Vector<Node*>` constructor (an `allocate_block(max_n_children *
aligned_item_size<Node*>, alignof(Node*))`, i.e. `k * 8` bytes at
alignment 8), after which the node takes `node_id = counter++`. -/

/-- `sizeof(without_raii::Node)`: a `Vector<Node*>` (pointer + two ints,
padded) plus `node_id`, padded to alignment 8. -/
def NODE_SIZE : Nat := 24

/-- `alignof(without_raii::Node)` = `alignof(Node*)` = 8. -/
def NODE_ALIGN : Nat := 8

/-- `aligned_item_size<Node*>::value` (src/main.cpp:127-131). -/
def PTR_SIZE : Nat := 8

/-- One `add_child` on the region allocator: allocate the node block, then
the child's children-vector block, then assign the next id. -/
def newChildR (pb : Nat → Nat) (fuel k c : Nat) (σ : AllocState) :
    Option (Tree × Nat × AllocState) :=
  match allocateFuel pb fuel NODE_SIZE NODE_ALIGN σ with
  | some (.ok _ σ1) =>
    match allocateFuel pb fuel (k * PTR_SIZE) NODE_ALIGN σ1 with
    | some (.ok _ σ2) => some (Tree.node c [], c + 1, σ2)
    | _ => none
  | _ => none

/-- The `for (int i = 0; i < n; ++i) node.add_child(...)` loop on the
region allocator. -/
def addKidsR (pb : Nat → Nat) (fuel k : Nat) : Nat → Nat → AllocState → Option (List Tree × Nat × AllocState)
  | 0, c, σ => some ([], c, σ)
  | n + 1, c, σ =>
    match newChildR pb fuel k c σ with
    | some (t, c1, σ1) =>
      match addKidsR pb fuel k n c1 σ1 with
      | some (ts, c2, σ2) => some (t :: ts, c2, σ2)
      | none => none
    | none => none

/-- The `for (auto& c : node.children)` recursion loop on the region
allocator. -/
def mapAccumR (g : Tree → Nat → AllocState → Option (Tree × Nat × AllocState)) :
    List Tree → Nat → AllocState → Option (List Tree × Nat × AllocState)
  | [], c, σ => some ([], c, σ)
  | t :: ts, c, σ =>
    match g t c σ with
    | some (t1, c1, σ1) =>
      match mapAccumR g ts c1 σ1 with
      | some (ts1, c2, σ2) => some (t1 :: ts1, c2, σ2)
      | none => none
    | none => none

/-- `build_subtree` instantiated with `without_raii::Allocator` /
`without_raii::Node`. -/
def buildSubtreeR (pb : Nat → Nat) (fuel k : Nat) : Nat → Tree → Nat → AllocState → Option (Tree × Nat × AllocState)
  | 0 => fun t c σ =>
    match t with
    | .node id ch =>
      match addKidsR pb fuel k k c σ with
      | some (kids, c1, σ1) => some (Tree.node id (ch ++ kids), c1, σ1)
      | none => none
  | 1 => fun t c σ =>
    match t with
    | .node id ch =>
      match addKidsR pb fuel k k c σ with
      | some (kids, c1, σ1) => some (Tree.node id (ch ++ kids), c1, σ1)
      | none => none
  | L + 2 => fun t c σ =>
    match t with
    | .node id ch =>
      match addKidsR pb fuel k k c σ with
      | some (kids, c1, σ1) =>
        match mapAccumR (buildSubtreeR pb fuel k (L + 1)) (ch ++ kids) c1 σ1 with
        | some (ch2, c2, σ2) => some (Tree.node id ch2, c2, σ2)
        | none => none
      | none => none

/-- `build_tree` on the region allocator, counter reset to 0: the stack
root's `Vector` constructor allocates its children block, the root takes
id 0, and `build_subtree` runs with `d` levels left. -/
def buildTreeR (pb : Nat → Nat) (fuel k d : Nat) : Option (Tree × Nat × AllocState) :=
  match allocateFuel pb fuel (k * PTR_SIZE) NODE_ALIGN initAllocState with
  | some (.ok _ σ1) => buildSubtreeR pb fuel k d (Tree.node 0 []) 1 σ1
  | _ => none

/-! ## Arithmetic of the checksum traversal -/

/-- Transport an equality of residues through an addition on the left. -/
lemma add_mod_congr (a b b' n : Nat) (h : b % n = b' % n) :
    (a + b) % n = (a + b') % n := by
  rw [Nat.add_mod, h, ← Nat.add_mod]

mutual
/-- `traverse` agrees with the plain sum of ids modulo `CHECKSUM_MOD`. -/
lemma traverse_modeq : ∀ t : Tree,
    traverse t % CHECKSUM_MOD = sumIds t % CHECKSUM_MOD
  | .node i cs => by
    rw [traverse, sumIds]
    exact traverseAux_modeq i cs
/-- The accumulation loop of `traverse` agrees with the plain sum modulo
`CHECKSUM_MOD`. -/
lemma traverseAux_modeq : ∀ (acc : Nat) (cs : List Tree),
    traverseAux acc cs % CHECKSUM_MOD = (acc + sumIdsList cs) % CHECKSUM_MOD
  | acc, [] => by simp [traverseAux, sumIdsList]
  | acc, c :: cs => by
    rw [traverseAux, sumIdsList,
      traverseAux_modeq ((acc + traverse c) % CHECKSUM_MOD) cs, Nat.mod_add_mod]
    have h1 : traverse c % CHECKSUM_MOD = sumIds c % CHECKSUM_MOD :=
      traverse_modeq c
    have h2 : acc + traverse c + sumIdsList cs
        = acc + sumIdsList cs + traverse c := by ring
    rw [h2, add_mod_congr _ _ _ _ h1]
    congr 1
    ring
end

/-- The accumulation loop of `traverse` keeps its accumulator below the
modulus. -/
lemma traverseAux_lt (cs : List Tree) :
    ∀ acc : Nat, acc < CHECKSUM_MOD → traverseAux acc cs < CHECKSUM_MOD := by
  induction cs with
  | nil => intro acc h; simpa [traverseAux] using h
  | cons c cs ih =>
    intro acc h
    rw [traverseAux]
    exact ih _ (Nat.mod_lt _ (by norm_num [CHECKSUM_MOD]))

/-- On a tree whose root id is below the modulus (in particular whenever
every id is), the code traversal computes the sum of all ids reduced. -/
lemma traverse_eq_sumIds_mod (t : Tree) (h : idsBelow CHECKSUM_MOD t = true) :
    traverse t = sumIds t % CHECKSUM_MOD := by
  obtain ⟨i, cs⟩ := t
  have hi : i < CHECKSUM_MOD := by
    rw [idsBelow] at h
    simp only [Bool.and_eq_true, decide_eq_true_eq] at h
    exact h.1
  have hlt : traverse (Tree.node i cs) < CHECKSUM_MOD := by
    rw [traverse]; exact traverseAux_lt cs i hi
  have := traverse_modeq (Tree.node i cs)
  rwa [Nat.mod_eq_of_lt hlt] at this

mutual
/-- The spec's checksum formula always equals the reduced sum of ids. -/
lemma checksum_spec_eq_sumIds_mod : ∀ t : Tree,
    checksum_spec t = sumIds t % CHECKSUM_MOD
  | .node i cs => by
    rw [checksum_spec, sumIds]
    exact checksumSpecAux_modeq i cs
/-- The accumulation loop of `checksum_spec` agrees with the plain sum
modulo `CHECKSUM_MOD`. -/
lemma checksumSpecAux_modeq : ∀ (acc : Nat) (cs : List Tree),
    checksumSpecAux acc cs % CHECKSUM_MOD = (acc + sumIdsList cs) % CHECKSUM_MOD
  | acc, [] => by simp [checksumSpecAux, sumIdsList]
  | acc, c :: cs => by
    rw [checksumSpecAux, sumIdsList,
      checksumSpecAux_modeq ((acc + checksum_spec c) % CHECKSUM_MOD) cs,
      Nat.mod_add_mod]
    have h1 : checksum_spec c % CHECKSUM_MOD = sumIds c % CHECKSUM_MOD := by
      rw [checksum_spec_eq_sumIds_mod c]
      simp [Nat.mod_mod_of_dvd]
    have h2 : acc + checksum_spec c + sumIdsList cs
        = acc + sumIdsList cs + checksum_spec c := by ring
    rw [h2, add_mod_congr _ _ _ _ h1]
    congr 1
    ring
end

mutual
/-- `sumIds` is the sum of the preorder id list. -/
lemma sumIds_eq_idsList_sum : ∀ t : Tree, sumIds t = (idsList t).sum
  | .node i cs => by
    rw [sumIds, idsList, List.sum_cons, sumIdsList_eq_idsListList_sum cs]
lemma sumIdsList_eq_idsListList_sum : ∀ cs : List Tree,
    sumIdsList cs = (idsListList cs).sum
  | [] => by simp [sumIdsList, idsListList]
  | c :: cs => by
    rw [sumIdsList, idsListList, List.sum_append,
      sumIds_eq_idsList_sum c, sumIdsList_eq_idsListList_sum cs]
end

/-! ## Node counting -/

/-- `addKids` advances the node counter by one per child created. -/
lemma addKids_snd : ∀ n c, (addKids n c).2 = c + n
  | 0, c => by simp [addKids]
  | n + 1, c => by
    rw [addKids]
    simp only [addKids_snd n (c + 1)]
    omega

/-- `addKids` creates one node per loop iteration. -/
lemma addKids_length : ∀ n c, (addKids n c).1.length = n
  | 0, c => by simp [addKids]
  | n + 1, c => by
    rw [addKids]
    simp [addKids_length n (c + 1)]

/-- Children fresh out of `addKids` have no children of their own yet. -/
lemma addKids_leaves : ∀ n c, ∀ t ∈ (addKids n c).1, ∃ i, t = Tree.node i []
  | 0, c => by simp [addKids]
  | n + 1, c => by
    rw [addKids]
    intro t ht
    rcases List.mem_cons.mp ht with h | h
    · exact ⟨c, h⟩
    · exact addKids_leaves n (c + 1) t h

/-- If one rebuild step advances the counter by `g` on any fresh node, the
child loop advances it by `g` per fresh child. -/
lemma mapAccumCounter_count (f : Tree → Nat → Tree × Nat) (g : Nat)
    (hf : ∀ i c, (f (Tree.node i []) c).2 = c + g) :
    ∀ (ts : List Tree) (c : Nat), (∀ t ∈ ts, ∃ i, t = Tree.node i []) →
      (mapAccumCounter f ts c).2 = c + ts.length * g
  | [], c, _ => by simp [mapAccumCounter]
  | t :: ts, c, h => by
    obtain ⟨i, rfl⟩ := h t (by simp)
    rw [mapAccumCounter]
    simp only [List.length_cons]
    rw [mapAccumCounter_count f g hf ts (f (Tree.node i []) c).2
      (fun u hu => h u (by simp [hu])), hf i c]
    ring

/-- `build_subtree` on a fresh node advances the node counter by
`gcount k levels_left`. -/
lemma buildSubtree_leaf_count (k : Nat) : ∀ (L i c : Nat),
    (buildSubtree k L (Tree.node i []) c).2 = c + gcount k L
  | 0, i, c => by simp [buildSubtree, gcount, addKids_snd]
  | 1, i, c => by simp [buildSubtree, gcount, addKids_snd]
  | L + 2, i, c => by
    rw [buildSubtree]
    simp only [List.nil_append]
    rw [mapAccumCounter_count (buildSubtree k (L + 1)) (gcount k (L + 1))
      (fun j c1 => buildSubtree_leaf_count k (L + 1) j c1)
      ((addKids k c).1) ((addKids k c).2) (addKids_leaves k c)]
    rw [addKids_snd, addKids_length, gcount]
    ring

/-- Closed form: the children created below one node through `d + 1`
levels number `k + k^2 + ... + k^(d+1)`. -/
lemma gcount_eq (k : Nat) : ∀ d : Nat,
    gcount k (d + 1) = ∑ i in Finset.range (d + 1), k ^ (i + 1)
  | 0 => by simp [gcount]
  | d + 1 => by
    rw [show d + 1 + 1 = d + 2 from rfl, gcount, gcount_eq k d,
      Finset.sum_range_succ' (fun i => k ^ (i + 1)) (d + 1), Finset.mul_sum]
    rw [Finset.sum_congr rfl (fun i _ => show k * k ^ (i + 1) = k ^ (i + 1 + 1) by ring)]
    simp [add_comm]

/-! ## Cross-strategy equivalence: the region build refines the pure build -/

/-- First component of a pair equality. -/
lemma pair_eq_fst {α β : Type} {a : α} {b : β} {p : α × β} (h : (a, b) = p) :
    a = p.1 := by rw [← h]

/-- Second component of a pair equality. -/
lemma pair_eq_snd {α β : Type} {a : α} {b : β} {p : α × β} (h : (a, b) = p) :
    b = p.2 := by rw [← h]

/-- A successful region `add_child` creates the same fresh node and counter
advance as the ownership-based one. -/
lemma newChildR_proj (pb : Nat → Nat) (fuel k c : Nat) (σ : AllocState)
    (t : Tree) (c1 : Nat) (σ1 : AllocState)
    (h : newChildR pb fuel k c σ = some (t, c1, σ1)) :
    t = Tree.node c [] ∧ c1 = c + 1 := by
  unfold newChildR at h
  split at h
  · split at h
    · simp only [Option.some.injEq, Prod.mk.injEq] at h
      exact ⟨h.1.symm, h.2.1.symm⟩
    · exact absurd h (by simp)
  · exact absurd h (by simp)

/-- A successful region child loop produces the `addKids` children and
counter. -/
lemma addKidsR_proj (pb : Nat → Nat) (fuel k : Nat) :
    ∀ (n c : Nat) (σ : AllocState) (out : List Tree × Nat × AllocState),
      addKidsR pb fuel k n c σ = some out → (out.1, out.2.1) = addKids n c
  | 0, c, σ, out => by
    intro h
    simp only [addKidsR, Option.some.injEq] at h
    simp [← h, addKids]
  | n + 1, c, σ, out => by
    intro h
    rw [addKidsR] at h
    split at h
    case h_2 => exact absurd h (by simp)
    case h_1 t1 c1 σ1 heq =>
      split at h
      case h_2 => exact absurd h (by simp)
      case h_1 ts c2 σ2 heq2 =>
        obtain ⟨rfl, rfl⟩ := newChildR_proj pb fuel k c σ t1 c1 σ1 heq
        have ih := addKidsR_proj pb fuel k n (c + 1) σ1 (ts, c2, σ2) heq2
        dsimp only at ih
        simp only [Option.some.injEq] at h
        rw [addKids, ← h]
        simp only [Prod.mk.injEq]
        exact ⟨by rw [pair_eq_fst ih], pair_eq_snd ih⟩

/-- If a stateful rebuild step projects to a pure one, so does the child
recursion loop. -/
lemma mapAccumR_proj (g : Tree → Nat → AllocState → Option (Tree × Nat × AllocState))
    (gP : Tree → Nat → Tree × Nat)
    (hg : ∀ t c σ out, g t c σ = some out → (out.1, out.2.1) = gP t c) :
    ∀ (ts : List Tree) (c : Nat) (σ : AllocState) (out : List Tree × Nat × AllocState),
      mapAccumR g ts c σ = some out → (out.1, out.2.1) = mapAccumCounter gP ts c
  | [], c, σ, out => by
    intro h
    simp only [mapAccumR, Option.some.injEq] at h
    simp [← h, mapAccumCounter]
  | t :: ts, c, σ, out => by
    intro h
    rw [mapAccumR] at h
    split at h
    case h_2 => exact absurd h (by simp)
    case h_1 t1 c1 σ1 heq =>
      split at h
      case h_2 => exact absurd h (by simp)
      case h_1 ts1 c2 σ2 heq2 =>
        have h1 := hg t c σ (t1, c1, σ1) heq
        have ih := mapAccumR_proj g gP hg ts c1 σ1 (ts1, c2, σ2) heq2
        dsimp only at h1 ih
        simp only [Option.some.injEq] at h
        rw [mapAccumCounter, ← h]
        simp only [Prod.mk.injEq]
        have hc1 : c1 = (gP t c).2 := pair_eq_snd h1
        rw [hc1] at ih
        exact ⟨by rw [pair_eq_fst h1, pair_eq_fst ih], pair_eq_snd ih⟩

/-- A successful region `build_subtree` produces exactly the tree and
counter of the ownership-based `build_subtree`. -/
lemma buildSubtreeR_proj (pb : Nat → Nat) (fuel k : Nat) :
    ∀ (L : Nat) (t : Tree) (c : Nat) (σ : AllocState) (out : Tree × Nat × AllocState),
      buildSubtreeR pb fuel k L t c σ = some out →
      (out.1, out.2.1) = buildSubtree k L t c
  | 0, .node id ch, c, σ, out => by
    intro h
    simp only [buildSubtreeR] at h
    split at h
    case h_2 => exact absurd h (by simp)
    case h_1 kids c1 σ1 heq =>
      have h1 := addKidsR_proj pb fuel k k c σ (kids, c1, σ1) heq
      dsimp only at h1
      simp only [Option.some.injEq] at h
      simp only [buildSubtree, ← h, Prod.mk.injEq]
      exact ⟨by rw [pair_eq_fst h1], pair_eq_snd h1⟩
  | 1, .node id ch, c, σ, out => by
    intro h
    simp only [buildSubtreeR] at h
    split at h
    case h_2 => exact absurd h (by simp)
    case h_1 kids c1 σ1 heq =>
      have h1 := addKidsR_proj pb fuel k k c σ (kids, c1, σ1) heq
      dsimp only at h1
      simp only [Option.some.injEq] at h
      simp only [buildSubtree, ← h, Prod.mk.injEq]
      exact ⟨by rw [pair_eq_fst h1], pair_eq_snd h1⟩
  | L + 2, .node id ch, c, σ, out => by
    intro h
    simp only [buildSubtreeR] at h
    split at h
    case h_2 => exact absurd h (by simp)
    case h_1 kids c1 σ1 heq =>
      split at h
      case h_2 => exact absurd h (by simp)
      case h_1 ch2 c2 σ2 heq2 =>
        have h1 := addKidsR_proj pb fuel k k c σ (kids, c1, σ1) heq
        have ih := mapAccumR_proj (buildSubtreeR pb fuel k (L + 1)) (buildSubtree k (L + 1))
          (fun u cu σu outu hu => buildSubtreeR_proj pb fuel k (L + 1) u cu σu outu hu)
          (ch ++ kids) c1 σ1 (ch2, c2, σ2) heq2
        dsimp only at h1 ih
        simp only [Option.some.injEq] at h
        simp only [buildSubtree, ← h, Prod.mk.injEq]
        have hkids : kids = (addKids k c).1 := pair_eq_fst h1
        have hc1 : c1 = (addKids k c).2 := pair_eq_snd h1
        rw [hkids, hc1] at ih
        exact ⟨by rw [pair_eq_fst ih], pair_eq_snd ih⟩

/-- A successful region `build_tree` produces exactly the ownership-based
tree and node counter. -/
lemma buildTreeR_proj (pb : Nat → Nat) (fuel k d : Nat) (t : Tree) (c : Nat)
    (σ : AllocState) (h : buildTreeR pb fuel k d = some (t, c, σ)) :
    t = (buildTreeRaii k d).1 ∧ c = (buildTreeRaii k d).2 := by
  unfold buildTreeR at h
  split at h
  case h_2 => exact absurd h (by simp)
  case h_1 r σ1 heq =>
    have h1 := buildSubtreeR_proj pb fuel k d (Tree.node 0 []) 1 σ1 (t, c, σ) h
    dsimp only at h1
    rw [buildTreeRaii]
    exact ⟨pair_eq_fst h1, pair_eq_snd h1⟩

/-! ## Allocator correctness -/

/-- Rounding up to a positive alignment never moves the pointer down. -/
lemma le_roundUp (p a : Nat) (ha : 0 < a) : p ≤ roundUp p a := by
  rw [roundUp, mul_comm]
  have h1 := Nat.div_add_mod (p + a - 1) a
  have h2 := Nat.mod_lt (p + a - 1) ha
  generalize a * ((p + a - 1) / a) = X at h1 ⊢
  omega

/-- The rounded-up pointer is aligned. -/
lemma roundUp_dvd (p a : Nat) : a ∣ roundUp p a :=
  dvd_mul_left a _

/-- An already aligned pointer is left unmoved. -/
lemma roundUp_eq_of_dvd (p a : Nat) (ha : 0 < a) (h : a ∣ p) : roundUp p a = p := by
  obtain ⟨m, rfl⟩ := h
  rw [roundUp]
  have he : a * m + a - 1 = (a - 1) + a * m := by omega
  rw [he, Nat.add_mul_div_left _ _ ha, Nat.div_eq_of_lt (by omega)]
  ring

/-- Clearing the cursor (and possibly having created pages meanwhile)
preserves the allocator invariant. -/
lemma inv_clear (pb : Nat → Nat) (st : AllocState) (bs : List Block)
    (h : Inv pb st bs) (n1 : Nat) (hn : st.nPages ≤ n1) :
    Inv pb ⟨n1, none⟩ bs := by
  obtain ⟨-, hbs, hpair, halign⟩ := h
  refine ⟨by simp, ?_, hpair, halign⟩
  intro b hb
  obtain ⟨i, hi, hpage, -⟩ := hbs b hb
  refine ⟨i, ?_, hpage, by simp⟩
  show i < n1
  omega

/-- One successful carve at a cursor `[p, p + s)` spanning the tail of page
`m` preserves the invariant, the new state having `m + 1` pages. -/
lemma carve_inv (pb : Nat → Nat) (hpp : pagesDisjoint pb)
    (bs : List Block) (m p s size alignment q s1 : Nat)
    (ha : 0 < alignment)
    (hcur1 : pb m ≤ p) (hcur2 : p + s = pb m + PAGE_SIZE)
    (hbs : ∀ b ∈ bs, ∃ i, i ≤ m ∧ blockInPage pb b i ∧ (i = m → b.1 + b.2.1 ≤ p))
    (hpair : List.Pairwise blocksDisjoint bs)
    (halign : ∀ b ∈ bs, 0 < b.2.2 → b.2.2 ∣ b.1)
    (hsa : stdAlign alignment size p s = some (q, s1)) :
    Inv pb ⟨m + 1, some (q + size, s1 - size)⟩ (bs ++ [(q, size, alignment)]) := by
  rw [stdAlign] at hsa
  split at hsa
  case isFalse => exact absurd hsa (by simp)
  case isTrue hfit =>
    simp only [Option.some.injEq, Prod.mk.injEq] at hsa
    obtain ⟨hq, hs1⟩ := hsa
    have hpq : p ≤ roundUp p alignment := le_roundUp p alignment ha
    rw [hq] at hpq hfit hs1
    have hqd : alignment ∣ q := hq ▸ roundUp_dvd p alignment
    -- the carved block fits in the page
    have hend : q + size ≤ pb m + PAGE_SIZE := by omega
    rw [Inv]
    dsimp only
    refine ⟨?_, ?_, ?_, ?_⟩
    · -- cursor clause
      intro p2 s2 hc
      simp only [Option.some.injEq, Prod.mk.injEq] at hc
      obtain ⟨hca, hcb⟩ := hc
      exact ⟨m, rfl, by omega, by omega⟩
    · -- block clause
      intro b hb
      rcases List.mem_append.mp hb with hbl | hbr
      · obtain ⟨i, hi, hpage, hact⟩ := hbs b hbl
        refine ⟨i, by omega, hpage, ?_⟩
        intro p2 s2 hc hi2
        simp only [Option.some.injEq, Prod.mk.injEq] at hc
        obtain ⟨hca, hcb⟩ := hc
        have him : i = m := by omega
        have hbe := hact him
        omega
      · have hb1 : b = (q, size, alignment) := by simpa using hbr
        subst hb1
        refine ⟨m, by omega, ⟨by show pb m ≤ q; omega, by show q + size ≤ pb m + PAGE_SIZE; omega⟩, ?_⟩
        intro p2 s2 hc hi2
        simp only [Option.some.injEq, Prod.mk.injEq] at hc
        obtain ⟨hca, hcb⟩ := hc
        show q + size ≤ p2
        omega
    · -- pairwise disjointness
      rw [List.pairwise_append]
      refine ⟨hpair, by simp, ?_⟩
      intro b hb b2 hb2
      have hb2e : b2 = (q, size, alignment) := by simpa using hb2
      subst hb2e
      obtain ⟨i, hi, hpage, hact⟩ := hbs b hb
      rw [blockInPage] at hpage
      rcases Nat.lt_or_ge i m with him | him
      · -- block in an earlier page: page disjointness decides
        rcases hpp i m (by omega) with hpg | hpg
        · exact Or.inl (by show b.1 + b.2.1 ≤ q; omega)
        · exact Or.inr (by show q + size ≤ b.1; omega)
      · -- block in the active page: it ends below the cursor
        have him2 : i = m := by omega
        have hbe := hact him2
        exact Or.inl (by show b.1 + b.2.1 ≤ q; omega)
    · -- alignment clause
      intro b hb
      rcases List.mem_append.mp hb with hbl | hbr
      · exact halign b hbl
      · have hb1 : b = (q, size, alignment) := by simpa using hbr
        subst hb1
        exact fun _ => hqd

/-- A successful `allocate_block` call preserves the allocator invariant,
the fresh block appended to the block log. -/
lemma allocate_inv (pb : Nat → Nat) (hpp : pagesDisjoint pb) :
    ∀ (fuel size alignment : Nat) (st : AllocState) (bs : List Block)
      (addr : Nat) (st1 : AllocState),
      0 < alignment → Inv pb st bs →
      allocateFuel pb fuel size alignment st = some (.ok addr st1) →
      Inv pb st1 (bs ++ [(addr, size, alignment)])
  | 0, size, alignment, st, bs, addr, st1 => by
    intro _ _ h
    exact absurd h (by simp [allocateFuel])
  | fuel + 1, size, alignment, st, bs, addr, st1 => by
    intro ha hinv h
    obtain ⟨n, cur⟩ := st
    rw [allocateFuel] at h
    split at h
    case isFalse => exact absurd h (by simp)
    case isTrue hsize =>
      cases cur with
      | none =>
        dsimp only at h
        split at h
        case h_1 q s1 hsa =>
          simp only [Option.some.injEq, AllocResult.ok.injEq] at h
          obtain ⟨rfl, rfl⟩ := h
          refine carve_inv pb hpp bs n (pb n) PAGE_SIZE size alignment q s1 ha
            (le_refl _) rfl ?_ hinv.2.2.1 hinv.2.2.2 hsa
          intro b hb
          obtain ⟨i, hi, hpage, -⟩ := hinv.2.1 b hb
          dsimp only at hi
          exact ⟨i, by omega, hpage, by omega⟩
        case h_2 hsa =>
          exact allocate_inv pb hpp fuel size alignment ⟨n + 1, none⟩ bs addr st1 ha
            (inv_clear pb ⟨n, none⟩ bs hinv (n + 1) (by simp)) h
      | some ps =>
        obtain ⟨p, s⟩ := ps
        dsimp only at h
        split at h
        case h_1 q s1 hsa =>
          simp only [Option.some.injEq, AllocResult.ok.injEq] at h
          obtain ⟨rfl, rfl⟩ := h
          obtain ⟨m, hm, hc1, hc2⟩ := hinv.1 p s rfl
          dsimp only at hm
          have hn : n = m + 1 := by omega
          subst hn
          refine carve_inv pb hpp bs m p s size alignment q s1 ha hc1 hc2 ?_
            hinv.2.2.1 hinv.2.2.2 hsa
          intro b hb
          obtain ⟨i, hi, hpage, hact⟩ := hinv.2.1 b hb
          dsimp only at hi hact
          exact ⟨i, by omega, hpage, fun hi2 => hact p s rfl (by omega)⟩
        case h_2 hsa =>
          exact allocate_inv pb hpp fuel size alignment ⟨n, none⟩ bs addr st1 ha
            (inv_clear pb ⟨n, some (p, s)⟩ bs hinv n (by simp)) h

/-- The fresh allocator satisfies the invariant with an empty block log. -/
lemma inv_init (pb : Nat → Nat) : Inv pb initAllocState [] := by
  refine ⟨?_, by simp, by simp, by simp⟩
  intro p s h
  simp [initAllocState] at h

/-- Running a request sequence from an invariant state reestablishes the
invariant with the returned blocks appended. -/
lemma runAlloc_inv (pb : Nat → Nat) (hpp : pagesDisjoint pb) (fuel : Nat) :
    ∀ (reqs : List (Nat × Nat)) (st : AllocState) (bs0 : List Block),
      Inv pb st bs0 → (∀ r ∈ reqs, 0 < r.2) →
      ∀ out, runAlloc pb fuel reqs st = some out → Inv pb out.2 (bs0 ++ out.1)
  | [], st, bs0 => by
    intro hinv _ out h
    simp only [runAlloc, Option.some.injEq] at h
    simpa [← h] using hinv
  | (size, alignment) :: rs, st, bs0 => by
    intro hinv hpos out h
    rw [runAlloc] at h
    split at h
    case h_2 => exact absurd h (by simp)
    case h_1 addr st1 heq =>
      split at h
      case h_2 => exact absurd h (by simp)
      case h_1 bs st2 heq2 =>
        have h1 := allocate_inv pb hpp fuel size alignment st bs0 addr st1
          (hpos (size, alignment) (by simp)) hinv heq
        have ih := runAlloc_inv pb hpp fuel rs st1 (bs0 ++ [(addr, size, alignment)])
          h1 (fun r hr => hpos r (by simp [hr])) (bs, st2) heq2
        simp only [Option.some.injEq] at h
        rw [← h]
        simpa [List.append_assoc] using ih

/-- Alignments of returned blocks are the requested ones, hence positive
when all requests are. -/
lemma runAlloc_align_pos (pb : Nat → Nat) (fuel : Nat) :
    ∀ (reqs : List (Nat × Nat)) (st : AllocState),
      (∀ r ∈ reqs, 0 < r.2) →
      ∀ out, runAlloc pb fuel reqs st = some out → ∀ b ∈ out.1, 0 < b.2.2
  | [], st => by
    intro _ out h
    simp only [runAlloc, Option.some.injEq] at h
    simp [← h]
  | (size, alignment) :: rs, st => by
    intro hpos out h
    rw [runAlloc] at h
    split at h
    case h_2 => exact absurd h (by simp)
    case h_1 addr st1 heq =>
      split at h
      case h_2 => exact absurd h (by simp)
      case h_1 bs st2 heq2 =>
        have ih := runAlloc_align_pos pb fuel rs st1
          (fun r hr => hpos r (by simp [hr])) (bs, st2) heq2
        simp only [Option.some.injEq] at h
        intro b hb
        rw [← h] at hb
        rcases List.mem_cons.mp hb with rfl | hb2
        · exact hpos (size, alignment) (by simp)
        · exact ih b hb2

/-! ## Allocator termination and the size threshold -/

/-- A request at most `MAX_SMALL_BLOCK_SIZE` never reaches the
`std::terminate()` branch, whatever the fuel and state. -/
lemma allocate_no_fatal (pb : Nat → Nat) :
    ∀ (fuel size alignment : Nat) (st : AllocState),
      size ≤ MAX_SMALL_BLOCK_SIZE →
      allocateFuel pb fuel size alignment st ≠ some .fatal
  | 0, size, alignment, st => by
    intro _
    simp [allocateFuel]
  | fuel + 1, size, alignment, st => by
    intro hsize
    obtain ⟨n, cur⟩ := st
    cases cur with
    | none =>
      rw [allocateFuel, if_pos hsize]
      dsimp only
      split
      · simp
      · exact allocate_no_fatal pb fuel size alignment _ hsize
    | some ps =>
      obtain ⟨p, s⟩ := ps
      rw [allocateFuel, if_pos hsize]
      dsimp only
      split
      · simp
      · exact allocate_no_fatal pb fuel size alignment _ hsize

/-- An oversized request reaches the `std::terminate()` branch at once. -/
lemma allocate_fatal (pb : Nat → Nat) (fuel size alignment : Nat) (st : AllocState)
    (hf : 1 ≤ fuel) (hsize : MAX_SMALL_BLOCK_SIZE < size) :
    allocateFuel pb fuel size alignment st = some .fatal := by
  obtain ⟨f, rfl⟩ : ∃ f, fuel = f + 1 := ⟨fuel - 1, by omega⟩
  rw [allocateFuel, if_neg (by omega)]

/-- On a fresh, `PAGE_ALIGN`-aligned page, a small carve whose alignment
divides the page alignment succeeds at the page base with no padding. -/
lemma fresh_page_carve (pb : Nat → Nat) (hpb : ∀ i, PAGE_ALIGN ∣ pb i)
    (n size alignment : Nat) (hsize : size ≤ MAX_SMALL_BLOCK_SIZE)
    (ha : alignment ∣ PAGE_ALIGN) (ha0 : 0 < alignment) :
    stdAlign alignment size (pb n) PAGE_SIZE = some (pb n, PAGE_SIZE) := by
  rw [stdAlign]
  rw [roundUp_eq_of_dvd (pb n) alignment ha0 (dvd_trans ha (hpb n))]
  have h1 : pb n - pb n + size ≤ PAGE_SIZE := by
    have h2 : MAX_SMALL_BLOCK_SIZE ≤ PAGE_SIZE := by
      norm_num [MAX_SMALL_BLOCK_SIZE, PAGE_SIZE]
    omega
  rw [if_pos h1]
  simp

/-- With a null cursor, a valid small request is served from a fresh page
in the very step, whatever fuel remains. -/
lemma allocate_none_cursor (pb : Nat → Nat) (hpb : ∀ i, PAGE_ALIGN ∣ pb i)
    (n size alignment fuel : Nat) (hsize : size ≤ MAX_SMALL_BLOCK_SIZE)
    (ha : alignment ∣ PAGE_ALIGN) (ha0 : 0 < alignment) (hf : 1 ≤ fuel) :
    allocateFuel pb fuel size alignment ⟨n, none⟩ =
      some (.ok (pb n) ⟨n + 1, some (pb n + size, PAGE_SIZE - size)⟩) := by
  obtain ⟨f, rfl⟩ : ∃ f, fuel = f + 1 := ⟨fuel - 1, by omega⟩
  rw [allocateFuel, if_pos hsize]
  dsimp only
  rw [fresh_page_carve pb hpb n size alignment hsize ha ha0]

/-- Unfolding one `allocate_block` step at a live cursor. -/
lemma allocate_some_cursor_step (pb : Nat → Nat) (fuel size alignment n p s : Nat)
    (hsize : size ≤ MAX_SMALL_BLOCK_SIZE) :
    allocateFuel pb (fuel + 1) size alignment ⟨n, some (p, s)⟩ =
      match stdAlign alignment size p s with
      | some (q, s1) => some (.ok q ⟨n, some (q + size, s1 - size)⟩)
      | none => allocateFuel pb fuel size alignment ⟨n, none⟩ := by
  rw [allocateFuel, if_pos hsize]

/-! ## Fixed-capacity vector behaviour -/

/-- Writing slot `ys.length` of a store holding `ys` followed by blank
slots records the new element in order. -/
lemma store_set_next (α : Type) (m : Nat) (ys : List α) (x : α)
    (h : ys.length < m) :
    (ys.map some ++ List.replicate (m - ys.length) none).set ys.length (some x) =
      (ys ++ [x]).map some ++ List.replicate (m - (ys.length + 1)) none := by
  rw [List.set_append, if_neg (by simp)]
  have h1 : m - ys.length = (m - (ys.length + 1)) + 1 := by omega
  rw [h1, List.replicate_succ]
  simp

/-- Pushing `xs` onto a vector already holding `ys` (with blank capacity
behind) succeeds when it fits and stores `ys ++ xs` in order. -/
lemma pushAll_spec (α : Type) (addr m : Nat) :
    ∀ (xs ys : List α), ys.length + xs.length ≤ m →
      Vector.pushAll ⟨addr, ys.map some ++ List.replicate (m - ys.length) none, ys.length, m⟩ xs =
        some ⟨addr, (ys ++ xs).map some ++ List.replicate (m - (ys.length + xs.length)) none,
          ys.length + xs.length, m⟩
  | [], ys => by
    intro h
    simp [Vector.pushAll]
  | x :: xs, ys => by
    intro h
    have hlt : ys.length < m := by
      simp only [List.length_cons] at h
      omega
    rw [Vector.pushAll, Vector.push_back]
    dsimp only
    rw [if_pos hlt]
    dsimp only
    rw [store_set_next α m ys x hlt]
    have ih := pushAll_spec α addr m xs (ys ++ [x])
      (by simp only [List.length_append, List.length_cons, List.length_nil] at h ⊢; omega)
    simp only [List.length_append, List.length_cons, List.length_nil,
      List.append_assoc, List.singleton_append] at ih ⊢
    rw [show ys.length + (xs.length + 1) = ys.length + 1 + xs.length by omega]
    rw [show ys.length + 0 + 1 = ys.length + 1 by omega] at ih
    exact ih

/-- The skewed page oracle is a legitimate page placement: every page is
aligned to the page type's 1024-byte alignment. -/
lemma pbSkew_aligned : ∀ i, PAGE_ALIGN ∣ pbSkew i := by
  intro i
  refine ⟨64 * i + 1, ?_⟩
  norm_num [pbSkew, PAGE_SIZE, PAGE_ALIGN]
  ring

/-- The skewed page oracle is a legitimate page placement: distinct pages
occupy disjoint address ranges. -/
lemma pbSkew_pagesDisjoint : pagesDisjoint pbSkew := by
  intro i j hij
  rcases Nat.lt_or_ge i j with hlt | hge
  · left
    show pbSkew i + PAGE_SIZE ≤ pbSkew j
    rw [pbSkew]
    calc PAGE_SIZE * i + PAGE_ALIGN + PAGE_SIZE
        = PAGE_SIZE * (i + 1) + PAGE_ALIGN := by ring
      _ ≤ PAGE_SIZE * j + PAGE_ALIGN :=
          Nat.add_le_add_right (Nat.mul_le_mul_left _ hlt) _
  · have hlt : j < i := by omega
    right
    show pbSkew j + PAGE_SIZE ≤ pbSkew i
    rw [pbSkew]
    calc PAGE_SIZE * j + PAGE_ALIGN + PAGE_SIZE
        = PAGE_SIZE * (j + 1) + PAGE_ALIGN := by ring
      _ ≤ PAGE_SIZE * i + PAGE_ALIGN :=
          Nat.add_le_add_right (Nat.mul_le_mul_left _ hlt) _

/-- Pages laid out back to back at 64 KiB strides are pairwise disjoint. -/
lemma pagesDisjoint_canonical : pagesDisjoint (fun i => PAGE_SIZE * i) := by
  intro i j hij
  rcases Nat.lt_or_ge i j with hlt | hge
  · left
    show PAGE_SIZE * i + PAGE_SIZE ≤ PAGE_SIZE * j
    calc PAGE_SIZE * i + PAGE_SIZE = PAGE_SIZE * (i + 1) := by ring
      _ ≤ PAGE_SIZE * j := Nat.mul_le_mul_left _ hlt
  · have hlt : j < i := by omega
    right
    show PAGE_SIZE * j + PAGE_SIZE ≤ PAGE_SIZE * i
    calc PAGE_SIZE * j + PAGE_SIZE = PAGE_SIZE * (j + 1) := by ring
      _ ≤ PAGE_SIZE * i := Nat.mul_le_mul_left _ hlt

/-! ## The claims -/

/-- C1: for every run with identical `N_CHILDREN = k` and `TREE_DEPTH = d`
and the node-identifier counter reset before each construction, the
region-based (`without_raii`) and ownership-based (`with_raii`) strategies
produce an identical checksum and an identical total node count (stated
for every region run that completes, over any page placement and any retry
budget). -/
theorem cross_strategy_equivalence (pb : Nat → Nat) (fuel k d : Nat)
    (t : Tree) (c : Nat) (σ : AllocState)
    (h : buildTreeR pb fuel k d = some (t, c, σ)) :
    traverse t = traverse (buildTreeRaii k d).1 ∧ c = (buildTreeRaii k d).2 := by
  obtain ⟨h1, h2⟩ := buildTreeR_proj pb fuel k d t c σ h
  exact ⟨by rw [h1], h2⟩

set_option maxHeartbeats 1000000 in
/-- Witness for C1: the region run with `k = 2`, `d = 2` on back-to-back
pages completes, and its checksum and node count match the ownership-based
build. -/
theorem cross_strategy_equivalence_witness :
    traverse (Tree.node 0 [Tree.node 1 [Tree.node 3 [], Tree.node 4 []],
      Tree.node 2 [Tree.node 5 [], Tree.node 6 []]]) = traverse (buildTreeRaii 2 2).1 ∧
    7 = (buildTreeRaii 2 2).2 :=
  cross_strategy_equivalence (fun i => 65536 * i) 2 2 2
    (Tree.node 0 [Tree.node 1 [Tree.node 3 [], Tree.node 4 []],
      Tree.node 2 [Tree.node 5 [], Tree.node 6 []]]) 7 ⟨1, some (256, 65280)⟩
    (by simp [buildTreeR, buildSubtreeR, mapAccumR, addKidsR, newChildR, allocateFuel,
      stdAlign, roundUp, initAllocState, NODE_SIZE, NODE_ALIGN, PTR_SIZE,
      MAX_SMALL_BLOCK_SIZE, PAGE_SIZE])

/-- C2: for every branching factor `k ≥ 1` and depth `d ≥ 1`, building the
tree via `build_tree`/`build_subtree` creates exactly
`1 + k + k^2 + ... + k^d` nodes in total, as counted by the
per-construction node counter (threaded through the builder, starting at
0). -/
theorem node_count_geometric (k d : Nat) (hk : 1 ≤ k) (hd : 1 ≤ d) :
    (buildTreeRaii k d).2 = ∑ i in Finset.range (d + 1), k ^ i := by
  obtain ⟨e, rfl⟩ : ∃ e, d = e + 1 := ⟨d - 1, by omega⟩
  rw [buildTreeRaii, buildSubtree_leaf_count, gcount_eq,
    Finset.sum_range_succ' (fun i => k ^ i) (e + 1)]
  simp [add_comm]

/-- Witness for C2: at `k = 2`, `d = 2` the counter ends at
`1 + 2 + 4 = 7`. -/
theorem node_count_geometric_witness : (buildTreeRaii 2 2).2 = 7 := by
  rw [node_count_geometric 2 2 (by norm_num) (by norm_num)]
  decide

/-- Counterexample to C3 as stated: on a single-node tree whose id equals
the modulus, `traverse` returns the id unreduced (the code's accumulator
starts at `node_id` and is only reduced when a child is added), while the
spec formula reduces the whole expression. -/
theorem traverse_formula_counterexample :
    traverse (Tree.node 43112609 []) ≠ checksum_spec (Tree.node 43112609 []) := by
  decide

/-- C3 (amended): for every tree whose node identifiers are all below
43112609, `traverse` returns exactly the spec's checksum
`(own_id + sum of checksum(child), each reduction taken modulo 43112609)
mod 43112609`; as a pure function of the tree it is read-only. -/
theorem traverse_matches_spec_formula (t : Tree)
    (h : idsBelow CHECKSUM_MOD t = true) :
    traverse t = checksum_spec t := by
  rw [traverse_eq_sumIds_mod t h, checksum_spec_eq_sumIds_mod t]

/-- Witness for C3 (amended) at a two-node tree. -/
theorem traverse_matches_spec_formula_witness :
    traverse (Tree.node 5 [Tree.node 2 []]) =
      checksum_spec (Tree.node 5 [Tree.node 2 []]) :=
  traverse_matches_spec_formula (Tree.node 5 [Tree.node 2 []]) (by decide)

/-- C4: with `N_CHILDREN = 2`, `TREE_DEPTH = 2` and the counter starting
at 0, construction creates exactly 7 nodes with identifiers 0..6 assigned
in the construction order of section 4.3 (all direct children created
before any grandchild, then left-to-right), and the traversal checksum is
21. -/
theorem concrete_scenario_k2_d2 :
    buildTreeRaii 2 2 =
      (Tree.node 0 [Tree.node 1 [Tree.node 3 [], Tree.node 4 []],
        Tree.node 2 [Tree.node 5 [], Tree.node 6 []]], 7) ∧
    traverse (buildTreeRaii 2 2).1 = 21 :=
  ⟨rfl, by decide⟩

/-- C5: for any sequence of `allocate_block(size, alignment)` calls with
`size ≤ 4096` (and positive requested alignments) on one region allocator
whose pages are pairwise disjoint, every returned block is aligned as
requested, lies within one of the allocator's pages, and does not overlap
any block returned by a previous successful call. -/
theorem allocator_blocks_safe (pb : Nat → Nat) (fuel : Nat)
    (reqs : List (Nat × Nat)) (bs : List Block) (st : AllocState)
    (hpp : pagesDisjoint pb)
    (hsize : ∀ r ∈ reqs, r.1 ≤ MAX_SMALL_BLOCK_SIZE)
    (halign : ∀ r ∈ reqs, 0 < r.2)
    (h : runAlloc pb fuel reqs initAllocState = some (bs, st)) :
    (∀ b ∈ bs, b.2.2 ∣ b.1) ∧
    (∀ b ∈ bs, ∃ i, i < st.nPages ∧ blockInPage pb b i) ∧
    List.Pairwise blocksDisjoint bs := by
  have hinv := runAlloc_inv pb hpp fuel reqs initAllocState [] (inv_init pb)
    halign (bs, st) h
  have hpos := runAlloc_align_pos pb fuel reqs initAllocState halign (bs, st) h
  dsimp only at hinv hpos
  rw [List.nil_append] at hinv
  obtain ⟨-, hbs, hpair, hal⟩ := hinv
  refine ⟨fun b hb => hal b hb (hpos b hb), fun b hb => ?_, hpair⟩
  obtain ⟨i, hi, hpage, -⟩ := hbs b hb
  exact ⟨i, hi, hpage⟩

/-- Witness for C5: three concrete requests on back-to-back pages yield
mutually disjoint blocks. -/
theorem allocator_blocks_safe_witness :
    List.Pairwise blocksDisjoint ([(0, 8, 8), (8, 16, 8), (32, 4096, 32)] : List Block) :=
  (allocator_blocks_safe (fun i => PAGE_SIZE * i) 2 [(8, 8), (16, 8), (4096, 32)]
    [(0, 8, 8), (8, 16, 8), (32, 4096, 32)] ⟨1, some (4128, 61408)⟩
    pagesDisjoint_canonical (by decide) (by decide) rfl).2.2

/-- C6: a call with `size > 4096` hits the `std::terminate()` branch (no
block is returned), and a call with `size ≤ 4096` never hits that branch,
whatever the state, alignment and fuel. -/
theorem allocate_block_size_threshold (pb : Nat → Nat)
    (fuel size alignment : Nat) (st : AllocState) (hf : 1 ≤ fuel) :
    (MAX_SMALL_BLOCK_SIZE < size →
      allocateFuel pb fuel size alignment st = some .fatal) ∧
    (size ≤ MAX_SMALL_BLOCK_SIZE →
      allocateFuel pb fuel size alignment st ≠ some .fatal) :=
  ⟨fun hs => allocate_fatal pb fuel size alignment st hf hs,
   fun hs => allocate_no_fatal pb fuel size alignment st hs⟩

/-- Witness for C6: a 5000-byte request aborts. -/
theorem allocate_block_size_threshold_witness :
    allocateFuel (fun i => PAGE_SIZE * i) 1 5000 8 initAllocState = some .fatal :=
  (allocate_block_size_threshold (fun i => PAGE_SIZE * i) 1 5000 8 initAllocState
    (by norm_num)).1 (by norm_num [MAX_SMALL_BLOCK_SIZE])

/-- Counterexample to C7 as stated: with pages placed by the (legitimately
1024-aligned, pairwise disjoint — `pbSkew_aligned`, `pbSkew_pagesDisjoint`)
skewed oracle, the call `allocate_block(4096, 65536)` has `size ≤ 4096`
yet is not served within one retry (fuel 2), nor within nine (fuel 10):
every fresh page leaves `64512 + 4096 > 65536` bytes needed after
alignment padding, so the retry recursion never terminates. -/
theorem allocate_retry_unbounded_counterexample :
    allocateFuel pbSkew 2 4096 65536 initAllocState = none ∧
    allocateFuel pbSkew 10 4096 65536 initAllocState = none :=
  ⟨rfl, rfl⟩

/-- C7 (amended): for every call `allocate_block(size, alignment)` with
`size ≤ 4096` and the requested alignment a positive divisor of the page
alignment 1024, on pages aligned to 1024, the call terminates and the
fresh-page retry occurs at most once: a budget of one initial attempt plus
one retry (fuel 2) already yields a block, and more budget changes
nothing. -/
theorem allocate_small_terminates_one_retry (pb : Nat → Nat)
    (fuel size alignment : Nat) (st : AllocState)
    (hpb : ∀ i, PAGE_ALIGN ∣ pb i)
    (hsize : size ≤ MAX_SMALL_BLOCK_SIZE) (ha : alignment ∣ PAGE_ALIGN)
    (ha0 : 0 < alignment) (hf : 2 ≤ fuel) :
    (∃ addr st1, allocateFuel pb fuel size alignment st = some (.ok addr st1)) ∧
    allocateFuel pb fuel size alignment st = allocateFuel pb 2 size alignment st := by
  obtain ⟨f, rfl⟩ : ∃ f, fuel = f + 2 := ⟨fuel - 2, by omega⟩
  obtain ⟨n, cur⟩ := st
  cases cur with
  | none =>
    rw [allocate_none_cursor pb hpb n size alignment (f + 2) hsize ha ha0 (by omega),
      allocate_none_cursor pb hpb n size alignment 2 hsize ha ha0 (by omega)]
    exact ⟨⟨_, _, rfl⟩, rfl⟩
  | some ps =>
    obtain ⟨p, s⟩ := ps
    rw [show f + 2 = (f + 1) + 1 from rfl,
      allocate_some_cursor_step pb (f + 1) size alignment n p s hsize,
      show (2 : Nat) = 1 + 1 from rfl,
      allocate_some_cursor_step pb 1 size alignment n p s hsize]
    cases hsa : stdAlign alignment size p s with
    | some qs =>
      obtain ⟨q, s1⟩ := qs
      exact ⟨⟨_, _, rfl⟩, rfl⟩
    | none =>
      dsimp only
      rw [allocate_none_cursor pb hpb n size alignment (f + 1) hsize ha ha0 (by omega),
        allocate_none_cursor pb hpb n size alignment 1 hsize ha ha0 (by omega)]
      exact ⟨⟨_, _, rfl⟩, rfl⟩

/-- Witness for C7 (amended): a 24-byte, 8-aligned request on back-to-back
pages is served identically with fuel 7 and fuel 2. -/
theorem allocate_small_terminates_one_retry_witness :
    allocateFuel (fun i => PAGE_SIZE * i) 7 24 8 initAllocState =
      allocateFuel (fun i => PAGE_SIZE * i) 2 24 8 initAllocState :=
  (allocate_small_terminates_one_retry (fun i => PAGE_SIZE * i) 7 24 8 initAllocState
    (fun i => ⟨64 * i, by norm_num [PAGE_SIZE, PAGE_ALIGN]; ring⟩)
    (by norm_num [MAX_SMALL_BLOCK_SIZE]) ⟨128, rfl⟩ (by norm_num) (by norm_num)).2

/-- C8: pushing `n ≤ max_size` elements into a fresh fixed-capacity vector
succeeds, and iterating from `begin()` to `end()` yields exactly those `n`
elements in push order (each slot read back initialized); the backing
block address and the capacity are unchanged from construction.
Iteration is a pure function of the vector, so re-iterating without
intervening pushes yields the same sequence. -/
theorem vector_iteration_push_order (α : Type) (addr m : Nat) (xs : List α)
    (h : xs.length ≤ m) :
    ∃ v : Vector α, (mkVector α addr m).pushAll xs = some v ∧
      v.iterate = xs.map some ∧ v.items = addr ∧ v.max_size = m := by
  refine ⟨⟨addr, xs.map some ++ List.replicate (m - xs.length) none, xs.length, m⟩,
    ?_, ?_, rfl, rfl⟩
  · have h0 : mkVector α addr m =
        ⟨addr, (([] : List α)).map some ++
          List.replicate (m - ([] : List α).length) none, ([] : List α).length, m⟩ := by
      simp [mkVector]
    rw [h0, pushAll_spec α addr m xs [] (by simpa using h)]
    simp
  · rw [Vector.iterate]
    dsimp only
    rw [show xs.length = (xs.map some).length by simp, List.take_left]

/-- Witness for C8: pushing `[10, 20]` into a fresh capacity-3 vector. -/
theorem vector_iteration_push_order_witness :
    ∃ v : Vector Nat, (mkVector Nat 0 3).pushAll [10, 20] = some v ∧
      v.iterate = [10, 20].map some ∧ v.items = 0 ∧ v.max_size = 3 :=
  vector_iteration_push_order Nat 0 3 [10, 20] (by norm_num)

/-- C9: pushing into a full fixed-capacity vector fails the
`assert(size < max_size)` and aborts rather than writing anything, and a
successful push had `size < max_size`, writes only slot `size` of the
backing store (whose length it preserves), and leaves the block address
and capacity unchanged. -/
theorem vector_push_full_aborts (α : Type) (v : Vector α) (x : α) :
    (v.size = v.max_size → v.push_back x = none) ∧
    (∀ v1, v.push_back x = some v1 →
      v.size < v.max_size ∧ v1.items = v.items ∧ v1.max_size = v.max_size ∧
      v1.size = v.size + 1 ∧ v1.store = v.store.set v.size (some x) ∧
      v1.store.length = v.store.length) := by
  constructor
  · intro hfull
    rw [Vector.push_back, if_neg (by omega)]
  · intro v1 h1
    rw [Vector.push_back] at h1
    split at h1
    case isTrue hlt =>
      simp only [Option.some.injEq] at h1
      rw [← h1]
      exact ⟨hlt, rfl, rfl, rfl, rfl, by simp⟩
    case isFalse => exact absurd h1 (by simp)

/-- Witness for C9: pushing onto a full one-slot vector aborts. -/
theorem vector_push_full_aborts_witness :
    Vector.push_back (⟨0, [some 5], 1, 1⟩ : Vector Nat) 7 = none :=
  (vector_push_full_aborts Nat ⟨0, [some 5], 1, 1⟩ 7).1 rfl

/-- C10: for every tree whose node identifiers are all below 43112609,
`traverse` returns the sum of all identifiers modulo 43112609; in
particular the checksum depends only on the multiset of identifiers, not
on the tree shape or on which identifier sits at which position. -/
theorem traverse_eq_sum_mod (t : Tree) (h : idsBelow CHECKSUM_MOD t = true) :
    traverse t = (idsList t).sum % CHECKSUM_MOD ∧
    ∀ u : Tree, idsBelow CHECKSUM_MOD u = true →
      (idsList u).Perm (idsList t) → traverse u = traverse t := by
  have h1 : traverse t = (idsList t).sum % CHECKSUM_MOD := by
    rw [traverse_eq_sumIds_mod t h, sumIds_eq_idsList_sum]
  refine ⟨h1, fun u hu hperm => ?_⟩
  rw [traverse_eq_sumIds_mod u hu, sumIds_eq_idsList_sum, hperm.sum_eq,
    ← sumIds_eq_idsList_sum, ← traverse_eq_sumIds_mod t h]

/-- Witness for C10: a three-node tree checksums to the sum of its ids. -/
theorem traverse_eq_sum_mod_witness :
    traverse (Tree.node 7 [Tree.node 9 [], Tree.node 1 []]) = 17 := by
  have h := traverse_eq_sum_mod (Tree.node 7 [Tree.node 9 [], Tree.node 1 []]) (by decide)
  rw [h.1]
  decide

end NoRaii
